import Mathlib

/-!
Verification of the fdb-mutex distributed mutual-exclusion protocol.

The store state under the mutex root subspace is embedded shallowly:

* owner range `R/"owner"/<name>`: a list of key-value pairs, key the owner
  name (string), value the heartbeat.  The heartbeat is `none` for the
  empty value written by `setOwner` and `some v` for a committed 12-byte
  versionstamp, modelled by the natural number `v`; versionstamps are
  strictly increasing across commits, and lexicographic comparison of the
  12-byte big-endian encodings agrees with comparison on `Nat` (with the
  empty value distinct from every versionstamp).

* queue range `R/"queue"/<versionstamp>`: a list of key-value pairs, key
  the commit versionstamp (a natural number), value the queued client
  name.  Range reads return entries in ascending key order, so the list
  is kept in that order; `QueueWF` records the representation invariant
  (strictly ascending keys, all below the next versionstamp).

* `vs`: the next versionstamp the store will substitute at commit time.

Each Go function built on `db.Transact` becomes a function on `Store`;
sequential composition of calls models any sequence of committed
operations.  Where a claim is about the split of a call into several
store transactions, the split is modelled explicitly by threading an
interfering transaction between the two parts (see `heartbeatCode`).
-/

namespace FdbMutex

/-- Owner record returned by `kv.getOwner`: the owner's name and the raw
heartbeat value (`none` for the empty value, `some v` for versionstamp `v`). -/
structure OwnerKV where
  name : String
  hbeat : Option Nat
deriving DecidableEq, Repr

/-- The committed store state under the mutex root subspace. -/
structure Store where
  owner : List (String × Option Nat)
  queue : List (Nat × String)
  vs : Nat
deriving DecidableEq, Repr

/-- Embeds `kv.getOwner` (kv.go): range-read the owner range with limit 1;
if empty return the blank owner record, else decode the single entry. -/
def getOwner (s : Store) : OwnerKV :=
  match s.owner with
  | [] => ⟨"", none⟩
  | (n, v) :: _ => ⟨n, v⟩

/-- Embeds `kv.setOwner` (kv.go): in one transaction, clear the whole owner
range, then set the owner key for `name` with the empty value. -/
def setOwner (s : Store) (name : String) : Store :=
  { s with owner := [(name, none)] }

/-- A point `Set` on the owner range: replace the value at key `k` if the
key is present, otherwise add the key.  Used by the versionstamped-value
write in `heartbeat`. -/
def upsert (l : List (String × Option Nat)) (k : String) (v : Option Nat) :
    List (String × Option Nat) :=
  match l with
  | [] => [(k, v)]
  | (k', v') :: rest => if k = k' then (k, v) :: rest else (k', v') :: upsert rest k v

/-- Embeds `kv.heartbeat` (kv.go) as a single atomic step: no-op for the
empty name; otherwise read the owner, and only when `name` is the owner's
name write the commit versionstamp into the owner key's value. -/
def heartbeat (s : Store) (name : String) : Store :=
  if name = "" then s
  else if name = (getOwner s).name then
    { s with owner := upsert s.owner name (some s.vs), vs := s.vs + 1 }
  else s

/-- Decides whether some queue entry's value equals `name`, as the range
scan in `kv.enqueue` does. -/
def queued (s : Store) (name : String) : Bool :=
  s.queue.any (fun e => e.2 == name)

/-- Embeds `kv.enqueue` (kv.go): scan the queue range; if any value equals
`name`, do nothing; otherwise perform a versionstamped-key set, which
places the entry after every previously committed queue entry. -/
def enqueue (s : Store) (name : String) : Store :=
  if queued s name then s
  else { s with queue := s.queue ++ [(s.vs, name)], vs := s.vs + 1 }

/-- Embeds `kv.dequeue` (kv.go): read the smallest key in the queue range;
if none, return `""`; otherwise clear that key and return its value. -/
def dequeue (s : Store) : String × Store :=
  match s.queue with
  | [] => ("", s)
  | (_, v) :: rest => (v, { s with queue := rest })

/-- Representation invariant for the queue range: entries are listed in
strictly ascending key order and every committed key is below the next
versionstamp. -/
def QueueWF (s : Store) : Prop :=
  s.queue.Pairwise (fun a b => a.1 < b.1) ∧ ∀ e ∈ s.queue, e.1 < s.vs

/-- Embeds `Mutex.TryAcquire` (mutex.go): in one transaction read the
owner and switch on its name — own name: already held; empty: install
self via `setOwner`; otherwise enqueue self and report failure. -/
def tryAcquire (self : String) (s : Store) : Bool × Store :=
  let owner := getOwner s
  if owner.name = self then (true, s)
  else if owner.name = "" then (true, setOwner s self)
  else (false, enqueue s self)

/-- Embeds `Mutex.Release` (mutex.go): in one transaction read the owner;
if the caller is not the owner, no-op; otherwise dequeue the head and
install the dequeued name as the new owner. -/
def release (self : String) (s : Store) : Store :=
  let owner := getOwner s
  if self ≠ owner.name then s
  else
    let (next, s') := dequeue s
    setOwner s' next

/-- C1: TryAcquire performs the owner-name case analysis: own name — true
with no writes; empty name — install self via setOwner and return true;
otherwise enqueue self and return false. -/
theorem tryAcquire_case_analysis (s : Store) (self : String) :
    ((getOwner s).name = self → tryAcquire self s = (true, s)) ∧
    ((getOwner s).name ≠ self → (getOwner s).name = "" →
      tryAcquire self s = (true, setOwner s self)) ∧
    ((getOwner s).name ≠ self → (getOwner s).name ≠ "" →
      tryAcquire self s = (false, enqueue s self)) := by
  refine ⟨fun h => ?_, fun h h' => ?_, fun h h' => ?_⟩
  · simp [tryAcquire, h]
  · have hne : ¬("" = self) := fun he => h (h'.trans he)
    simp [tryAcquire, h', hne]
  · have hne : ¬((getOwner s).name = self) := h
    simp [tryAcquire, hne, h']

/-- Witness for C1: all three cases of the analysis at concrete states. -/
theorem tryAcquire_case_analysis_witness :
    (tryAcquire "a" ⟨[("a", none)], [], 0⟩ = (true, ⟨[("a", none)], [], 0⟩)) ∧
    (tryAcquire "a" ⟨[("", none)], [], 0⟩ =
      (true, setOwner ⟨[("", none)], [], 0⟩ "a")) ∧
    (tryAcquire "a" ⟨[("b", none)], [], 0⟩ =
      (false, enqueue ⟨[("b", none)], [], 0⟩ "a")) := by
  refine ⟨(tryAcquire_case_analysis ⟨[("a", none)], [], 0⟩ "a").1 (by decide),
    (tryAcquire_case_analysis ⟨[("", none)], [], 0⟩ "a").2.1 (by decide) (by decide),
    (tryAcquire_case_analysis ⟨[("b", none)], [], 0⟩ "a").2.2 (by decide) (by decide)⟩

/-- C9: heartbeat leaves the entire store state unchanged whenever the
supplied name is empty or differs from the current owner's name. -/
theorem heartbeat_nonowner_noop (s : Store) (n : String)
    (h : n = "" ∨ n ≠ (getOwner s).name) : heartbeat s n = s := by
  rcases h with h | h
  · simp [heartbeat, h]
  · by_cases hn : n = ""
    · simp [heartbeat, hn]
    · simp [heartbeat, hn, h]

/-- Witness for C9: both the empty-name case and the non-owner case at
concrete states. -/
theorem heartbeat_nonowner_noop_witness :
    heartbeat ⟨[("A", none)], [], 0⟩ "" = ⟨[("A", none)], [], 0⟩ ∧
    heartbeat ⟨[("A", none)], [], 0⟩ "Z" = ⟨[("A", none)], [], 0⟩ :=
  ⟨heartbeat_nonowner_noop ⟨[("A", none)], [], 0⟩ "" (Or.inl rfl),
   heartbeat_nonowner_noop ⟨[("A", none)], [], 0⟩ "Z" (Or.inr (by decide))⟩

/-- C10: dequeue returns the empty string both when the queue is empty
(removing nothing) and when the head entry's value is the empty string
(removing the head); a release by the current owner that promotes such a
head installs the unowned sentinel as the new owner. -/
theorem dequeue_empty_string_ambiguity :
    (∀ s : Store, s.queue = [] → dequeue s = ("", s)) ∧
    (∀ (s : Store) (k : Nat) (rest : List (Nat × String)),
      s.queue = (k, "") :: rest → dequeue s = ("", { s with queue := rest })) ∧
    (∀ (s : Store) (k : Nat) (rest : List (Nat × String)) (self : String),
      (getOwner s).name = self → s.queue = (k, "") :: rest →
      (getOwner (release self s)).name = "" ∧ (release self s).queue = rest) := by
  refine ⟨fun s h => by simp [dequeue, h], fun s k rest h => by simp [dequeue, h],
    fun s k rest self hown hq => ?_⟩
  simp [release, hown.symm, dequeue, hq, setOwner, getOwner]

/-- Witness for C10: all three statements at concrete states. -/
theorem dequeue_empty_string_ambiguity_witness :
    (dequeue ⟨[("a", none)], [], 0⟩ = ("", ⟨[("a", none)], [], 0⟩)) ∧
    (dequeue ⟨[("a", none)], [(0, "")], 1⟩ = ("", ⟨[("a", none)], [], 1⟩)) ∧
    ((getOwner (release "a" ⟨[("a", none)], [(0, "")], 1⟩)).name = "" ∧
      (release "a" ⟨[("a", none)], [(0, "")], 1⟩).queue = []) :=
  ⟨dequeue_empty_string_ambiguity.1 ⟨[("a", none)], [], 0⟩ rfl,
   dequeue_empty_string_ambiguity.2.1 ⟨[("a", none)], [(0, "")], 1⟩ 0 [] rfl,
   dequeue_empty_string_ambiguity.2.2 ⟨[("a", none)], [(0, "")], 1⟩ 0 [] "a" rfl rfl⟩

/-- C3: when the caller is the current owner, release removes the queue
head and installs the dequeued name as the new owner: the head's name if
the queue was non-empty, the unowned sentinel if it was empty. -/
theorem release_promotes_queue_head (s : Store) (self : String)
    (_hwf : QueueWF s) (hown : (getOwner s).name = self) :
    (release self s).queue = s.queue.tail ∧
    (s.queue = [] → (getOwner (release self s)).name = "") ∧
    (∀ (k : Nat) (n : String) (rest : List (Nat × String)),
      s.queue = (k, n) :: rest → (getOwner (release self s)).name = n) := by
  match hq : s.queue with
  | [] =>
    refine ⟨?_, fun _ => ?_, fun k n rest hcons => by simp [hq] at hcons⟩ <;>
      simp [release, hown.symm, dequeue, hq, setOwner, getOwner]
  | (k, n) :: rest =>
    refine ⟨?_, fun hnil => by simp [hq] at hnil, fun k' n' rest' hcons => ?_⟩
    · simp [release, hown.symm, dequeue, hq, setOwner]
    · have hn : n = n' := by
        injection hcons with h1 _
        exact congrArg Prod.snd h1
      subst hn
      simp [release, hown.symm, dequeue, hq, setOwner, getOwner]

/-- Witness for C3: release by the owner at a concrete two-entry queue
promotes the head, and at a concrete empty queue installs the sentinel. -/
theorem release_promotes_queue_head_witness :
    ((release "a" ⟨[("a", none)], [(0, "b"), (1, "c")], 2⟩).queue = [(1, "c")] ∧
      (getOwner (release "a" ⟨[("a", none)], [(0, "b"), (1, "c")], 2⟩)).name = "b") ∧
    (getOwner (release "a" ⟨[("a", none)], [], 0⟩)).name = "" := by
  have h1 := release_promotes_queue_head ⟨[("a", none)], [(0, "b"), (1, "c")], 2⟩ "a"
    (by constructor <;> decide) rfl
  have h2 := release_promotes_queue_head ⟨[("a", none)], [], 0⟩ "a"
    (by constructor <;> decide) rfl
  exact ⟨⟨h1.1, h1.2.2 0 "b" [(1, "c")] rfl⟩, h2.2.1 rfl⟩

/-- Counts the queue entries whose value is `n`. -/
def countQueued (s : Store) (n : String) : Nat :=
  (s.queue.filter (fun e => e.2 == n)).length

/-- Iterates `enqueue` with a fixed name. -/
def enqueueN (s : Store) (n : String) : Nat → Store
  | 0 => s
  | k + 1 => enqueue (enqueueN s n k) n

/-- C8: enqueue is idempotent per name — when some queue entry's value
already equals `n`, `enqueue n` writes nothing; hence states with at most
one entry for `n` are preserved by every further `enqueue n`, and by any
number of repetitions. -/
theorem enqueue_idempotent_per_name :
    (∀ (s : Store) (n : String), queued s n = true → enqueue s n = s) ∧
    (∀ (s : Store) (n : String), countQueued s n ≤ 1 →
      countQueued (enqueue s n) n ≤ 1) ∧
    (∀ (s : Store) (n : String) (k : Nat), countQueued s n ≤ 1 →
      countQueued (enqueueN s n k) n ≤ 1) := by
  have hstep : ∀ (s : Store) (n : String), countQueued s n ≤ 1 →
      countQueued (enqueue s n) n ≤ 1 := by
    intro s n h
    by_cases hq : queued s n
    · simp [enqueue, hq, h]
    · have hnil : s.queue.filter (fun e => e.2 == n) = [] := by
        rw [List.filter_eq_nil_iff]
        intro e he
        have := (List.any_eq_false).1 (Bool.not_eq_true _ ▸ hq) e he
        simpa using this
      simp [enqueue, hq, countQueued, List.filter_append, hnil]
  refine ⟨fun s n h => by simp [enqueue, h], hstep, fun s n k => ?_⟩
  induction k with
  | zero => exact fun h => h
  | succ k ih => exact fun h => hstep _ n (ih h)

/-- Witness for C8: a queue already holding "a" is unchanged by
`enqueue "a"`, and repeated enqueues keep at most one entry for "a". -/
theorem enqueue_idempotent_per_name_witness :
    enqueue ⟨[("b", none)], [(0, "a")], 1⟩ "a" = ⟨[("b", none)], [(0, "a")], 1⟩ ∧
    countQueued (enqueue ⟨[("b", none)], [(0, "a")], 1⟩ "a") "a" ≤ 1 ∧
    countQueued (enqueueN ⟨[("b", none)], [], 0⟩ "a" 3) "a" ≤ 1 :=
  ⟨enqueue_idempotent_per_name.1 ⟨[("b", none)], [(0, "a")], 1⟩ "a" (by decide),
   enqueue_idempotent_per_name.2.1 ⟨[("b", none)], [(0, "a")], 1⟩ "a" (by decide),
   enqueue_idempotent_per_name.2.2 ⟨[("b", none)], [], 0⟩ "a" 3 (by decide)⟩

/-- C7: queue keys order the queue FIFO by commit time — an enqueue that
writes places its entry with a key strictly greater than every
previously committed entry's key; dequeue returns the value of the
minimal key (the earliest commit); and concretely, from an empty queue,
enqueue "Z" then enqueue "A" makes dequeue return "Z". -/
theorem queue_fifo_by_commit :
    (∀ (s : Store) (n : String), QueueWF s → queued s n = false →
      (enqueue s n).queue = s.queue ++ [(s.vs, n)] ∧
      ∀ e ∈ s.queue, e.1 < s.vs) ∧
    (∀ (s : Store) (k : Nat) (v : String) (rest : List (Nat × String)),
      QueueWF s → s.queue = (k, v) :: rest →
      (dequeue s).1 = v ∧ ∀ e ∈ rest, k < e.1) ∧
    (dequeue (enqueue (enqueue ⟨[("", none)], [], 0⟩ "Z") "A")).1 = "Z" := by
  refine ⟨fun s n hwf hq => ⟨by simp [enqueue, hq], hwf.2⟩,
    fun s k v rest hwf hq => ⟨by simp [dequeue, hq], ?_⟩, by decide⟩
  have := hwf.1
  rw [hq] at this
  exact fun e he => List.rel_of_pairwise_cons this he

/-- Witness for C7: the pair-ordering statement and the dequeue-head
statement at a concrete well-formed queue. -/
theorem queue_fifo_by_commit_witness :
    ((enqueue ⟨[("", none)], [(0, "Z"), (1, "A")], 2⟩ "B").queue =
        [(0, "Z"), (1, "A")] ++ [(2, "B")] ∧
      ∀ e ∈ [((0 : Nat), "Z"), (1, "A")], e.1 < 2) ∧
    ((dequeue ⟨[("", none)], [(0, "Z"), (1, "A")], 2⟩).1 = "Z" ∧
      ∀ e ∈ [((1 : Nat), "A")], 0 < e.1) := by
  have hwf : QueueWF ⟨[("", none)], [(0, "Z"), (1, "A")], 2⟩ := by
    constructor <;> decide
  exact ⟨queue_fifo_by_commit.1 ⟨[("", none)], [(0, "Z"), (1, "A")], 2⟩ "B" hwf
      (by decide),
    queue_fifo_by_commit.2.1 ⟨[("", none)], [(0, "Z"), (1, "A")], 2⟩ 0 "Z"
      [(1, "A")] hwf rfl⟩

/-- An operation of the protocol, as named by the spec. -/
inductive Op where
  | setO (n : String)
  | getO
  | hb (n : String)
  | enq (n : String)
  | deq
  | tryAcq (n : String)
  | rel (n : String)
deriving DecidableEq, Repr

/-- Applies one operation's committed effect to the store. -/
def applyOp (s : Store) : Op → Store
  | .setO n => setOwner s n
  | .getO => s
  | .hb n => heartbeat s n
  | .enq n => enqueue s n
  | .deq => (dequeue s).2
  | .tryAcq n => (tryAcquire n s).2
  | .rel n => release n s

/-- Runs a sequence of operations left to right. -/
def runOps (s : Store) : List Op → Store
  | [] => s
  | op :: rest => runOps (applyOp s op) rest

/-- Lists the keys currently present in the owner range. -/
def ownerKeys (s : Store) : List String :=
  s.owner.map Prod.fst

/-- Helper: enqueue only touches the queue range. -/
theorem owner_enqueue (s : Store) (n : String) : (enqueue s n).owner = s.owner := by
  unfold enqueue
  split <;> rfl

/-- Helper: dequeue only touches the queue range. -/
theorem owner_dequeue (s : Store) : (dequeue s).2.owner = s.owner := by
  unfold dequeue
  match s.queue with
  | [] => rfl
  | e :: rest => rfl

/-- Helper: heartbeat never changes the set of keys in the owner range —
it only overwrites the current owner key's value. -/
theorem ownerKeys_heartbeat (s : Store) (n : String) :
    ownerKeys (heartbeat s n) = ownerKeys s := by
  by_cases hn : n = ""
  · rw [heartbeat, if_pos hn]
  · match hs : s.owner with
    | [] =>
      have hname : (getOwner s).name = "" := by rw [getOwner, hs]
      rw [heartbeat, if_neg hn, if_neg (hname ▸ hn)]
    | (m, v) :: rest =>
      have hname : (getOwner s).name = m := by rw [getOwner, hs]
      by_cases hm : n = m
      · rw [heartbeat, if_neg hn, if_pos (hname ▸ hm)]
        simp [ownerKeys, hs, upsert, hm]
      · rw [heartbeat, if_neg hn, if_neg (hname ▸ hm)]

/-- Helper: a single operation preserves the at-most-one-owner-key bound. -/
theorem applyOp_owner_length_le (s : Store) (op : Op)
    (h : s.owner.length ≤ 1) : (applyOp s op).owner.length ≤ 1 := by
  match op with
  | .setO n => simp [applyOp, setOwner]
  | .getO => exact h
  | .hb n =>
    have hk := ownerKeys_heartbeat s n
    have : (heartbeat s n).owner.length = s.owner.length := by
      have := congrArg List.length hk
      simpa [ownerKeys] using this
    simpa [applyOp, this] using h
  | .enq n => simpa [applyOp, owner_enqueue] using h
  | .deq => simpa [applyOp, owner_dequeue] using h
  | .tryAcq n =>
    by_cases h1 : (getOwner s).name = n
    · simpa [applyOp, tryAcquire, h1] using h
    · by_cases h2 : (getOwner s).name = ""
      · have hne : ¬("" = n) := fun he => h1 (h2.trans he)
        simp [applyOp, tryAcquire, h1, h2, hne, setOwner]
      · simpa [applyOp, tryAcquire, h1, h2, owner_enqueue] using h
  | .rel n =>
    by_cases h1 : n = (getOwner s).name
    · simp [applyOp, release, h1, setOwner]
    · simpa [applyOp, release, h1] using h

/-- C2: along any sequence of the spec's operations the owner range keeps
at most one key, and any single operation that installs a key absent
before leaves the owner range holding exactly that freshly-set key with
the empty value — i.e. the install cleared the whole range in the same
transaction. -/
theorem owner_range_at_most_one_key :
    (∀ (ops : List Op) (s : Store), s.owner.length ≤ 1 →
      (runOps s ops).owner.length ≤ 1) ∧
    (∀ (op : Op) (s : Store) (k : String),
      k ∈ ownerKeys (applyOp s op) → k ∉ ownerKeys s →
      (applyOp s op).owner = [(k, none)]) := by
  constructor
  · intro ops
    induction ops with
    | nil => exact fun s h => h
    | cons op rest ih => exact fun s h => ih _ (applyOp_owner_length_le s op h)
  · intro op s k hin hout
    match op with
    | .setO n =>
      simp [applyOp, setOwner, ownerKeys] at hin ⊢
      exact hin ▸ rfl
    | .getO => exact absurd hin hout
    | .hb n =>
      rw [show applyOp s (.hb n) = heartbeat s n from rfl,
        ownerKeys_heartbeat s n] at hin
      exact absurd hin hout
    | .enq n =>
      rw [show applyOp s (.enq n) = enqueue s n from rfl, ownerKeys,
        owner_enqueue] at hin
      exact absurd hin hout
    | .deq =>
      rw [show applyOp s .deq = (dequeue s).2 from rfl, ownerKeys,
        owner_dequeue] at hin
      exact absurd hin hout
    | .tryAcq n =>
      by_cases h1 : (getOwner s).name = n
      · rw [show applyOp s (.tryAcq n) = (tryAcquire n s).2 from rfl] at hin
        rw [tryAcquire] at hin
        simp only [h1, if_pos rfl] at hin
        exact absurd hin hout
      · by_cases h2 : (getOwner s).name = ""
        · have hne : ¬("" = n) := fun he => h1 (h2.trans he)
          have hstep : applyOp s (.tryAcq n) = setOwner s n := by
            simp [applyOp, tryAcquire, h1, h2, hne]
          rw [hstep] at hin ⊢
          simp [setOwner, ownerKeys] at hin
          exact hin ▸ rfl
        · have hstep : applyOp s (.tryAcq n) = enqueue s n := by
            simp [applyOp, tryAcquire, h1, h2]
          rw [hstep, ownerKeys, owner_enqueue] at hin
          exact absurd hin hout
    | .rel n =>
      by_cases h1 : n = (getOwner s).name
      · have hstep : applyOp s (.rel n) = setOwner (dequeue s).2 (dequeue s).1 := by
          simp [applyOp, release, h1]
        rw [hstep] at hin ⊢
        simp [setOwner, ownerKeys] at hin
        exact hin ▸ rfl
      · have hstep : applyOp s (.rel n) = s := by
          simp [applyOp, release, h1]
        rw [hstep] at hin
        exact absurd hin hout

/-- Witness for C2: a concrete operation sequence keeps one owner key, and
a concrete install of a fresh key leaves exactly that key with empty value. -/
theorem owner_range_at_most_one_key_witness :
    (runOps ⟨[("", none)], [], 0⟩
        [.tryAcq "a", .hb "a", .tryAcq "b", .rel "a", .deq, .setO "c"]).owner.length ≤ 1 ∧
    (applyOp ⟨[("", none)], [], 0⟩ (.setO "b")).owner = [("b", none)] :=
  ⟨owner_range_at_most_one_key.1 _ _ (by decide),
   owner_range_at_most_one_key.2 (.setO "b") ⟨[("", none)], [], 0⟩ "b"
     (by decide) (by decide)⟩

/-- A store-level failure, as returned by a failed transaction. -/
inductive StoreErr where
  | failure (code : Nat)
deriving DecidableEq, Repr

/-- An error surfaced by the mutex constructor: the wrapped store failure
from the initializing `setOwner` call. -/
inductive MutexErr where
  | setupFailed (e : StoreErr)
deriving DecidableEq, Repr

/-- The in-process mutex handle: the client identity under which all
subsequent calls run. -/
structure MutexHandle where
  name : String
deriving DecidableEq, Repr

/-- Embeds a fallible `kv.setOwner` transaction: the store either fails
the transaction (outcome `r`), leaving the state unchanged, or commits
the clear-and-set. -/
def setOwnerTx (r : Except StoreErr Unit) (s : Store) (name : String) :
    Except StoreErr Store :=
  match r with
  | .error e => .error e
  | .ok _ => .ok (setOwner s name)

/-- Embeds `NewMutex` (unnamed part: the draft whose constructor returns
an error, the one the tests compile against): with the client name already
resolved, perform `setOwner ""` to initialize the owner key; on failure
wrap and surface the error, on success return the handle and the new
store state. -/
def newMutex (r : Except StoreErr Unit) (s : Store) (name : String) :
    Except MutexErr (MutexHandle × Store) :=
  match setOwnerTx r s "" with
  | .error e => .error (.setupFailed e)
  | .ok s' => .ok (⟨name⟩, s')

/-- C5: when the initializing `setOwner ""` fails, `newMutex` surfaces
that error and returns no mutex handle; conversely a handle is returned
only when the initializing transaction committed. -/
theorem newMutex_surfaces_setup_error :
    (∀ (e : StoreErr) (s : Store) (name : String),
      newMutex (.error e) s name = .error (.setupFailed e)) ∧
    (∀ (r : Except StoreErr Unit) (s : Store) (name : String)
        (m : MutexHandle) (s' : Store),
      newMutex r s name = .ok (m, s') → r = .ok ()) := by
  refine ⟨fun e s name => rfl, fun r s name m s' h => ?_⟩
  match r with
  | .ok u => rfl
  | .error e => simp [newMutex, setOwnerTx] at h

/-- Witness for C5: a concrete failed initialization surfaces the wrapped
error, and a concrete successful construction implies the transaction
committed. -/
theorem newMutex_surfaces_setup_error_witness :
    newMutex (.error (.failure 7)) ⟨[], [], 0⟩ "a" =
      .error (.setupFailed (.failure 7)) ∧
    Except.ok () = (Except.ok () : Except StoreErr Unit) :=
  ⟨newMutex_surfaces_setup_error.1 (.failure 7) ⟨[], [], 0⟩ "a",
   newMutex_surfaces_setup_error.2 (.ok ()) ⟨[], [], 0⟩ "a" ⟨"a"⟩
     (setOwner ⟨[], [], 0⟩ "") rfl⟩

/-- Snapshot of the owner record held by an auto-release reaper. -/
structure OwnerSnapshot where
  name : String
  hbeat : Option Nat
deriving DecidableEq, Repr

/-- Modelled from the spec: the repository's tests call a
`Mutex.AutoRelease` method that is absent from the sources (only a
commented-out draft of a free function remains), so the reaper's check
transaction is taken from the spec, section 4.3: read the current owner;
if its name differs from the snapshot, or its heartbeat differs from the
snapshot, or less than `maxAge` has elapsed since the snapshot timestamp,
the lock is live and the state is untouched; otherwise the owner is
presumed dead, the next name is dequeued and installed as the new owner.
Elapsed time is passed in as `elapsed`. -/
def autoReleaseCheck (snap : OwnerSnapshot) (elapsed maxAge : Nat) (s : Store) :
    OwnerSnapshot × Store :=
  let cur := getOwner s
  if cur.name ≠ snap.name ∨ cur.hbeat ≠ snap.hbeat ∨ elapsed < maxAge then
    (⟨cur.name, cur.hbeat⟩, s)
  else
    let (next, s') := dequeue s
    (⟨next, none⟩, setOwner s' next)

/-- C6: whenever the freshly read owner matches the reaper's snapshot in
both name and heartbeat and at least `maxAge` has elapsed, the check
transaction dequeues the next queued name and installs it as the new
owner — the queue head when one exists, the empty-string sentinel when
the queue is empty. -/
theorem autoRelease_reclaims_dead_owner (snap : OwnerSnapshot)
    (elapsed maxAge : Nat) (s : Store)
    (hname : (getOwner s).name = snap.name)
    (hbeat : (getOwner s).hbeat = snap.hbeat)
    (hage : maxAge ≤ elapsed) :
    (autoReleaseCheck snap elapsed maxAge s).2.queue = s.queue.tail ∧
    (s.queue = [] →
      (getOwner (autoReleaseCheck snap elapsed maxAge s).2).name = "") ∧
    (∀ (k : Nat) (n : String) (rest : List (Nat × String)),
      s.queue = (k, n) :: rest →
      (getOwner (autoReleaseCheck snap elapsed maxAge s).2).name = n) := by
  have hcond : ¬((getOwner s).name ≠ snap.name ∨ (getOwner s).hbeat ≠ snap.hbeat ∨
      elapsed < maxAge) := by
    push_neg
    exact ⟨hname, hbeat, hage⟩
  match hq : s.queue with
  | [] =>
    have hdeq : dequeue s = ("", s) := by simp [dequeue, hq]
    have hstep : autoReleaseCheck snap elapsed maxAge s = (⟨"", none⟩, setOwner s "") := by
      simp only [autoReleaseCheck]
      rw [if_neg hcond, hdeq]
    refine ⟨?_, fun _ => ?_, fun k n rest hcons => by simp [hq] at hcons⟩ <;>
      simp [hstep, setOwner, getOwner, hq]
  | (k, n) :: rest =>
    have hdeq : dequeue s = (n, { s with queue := rest }) := by simp [dequeue, hq]
    have hstep : autoReleaseCheck snap elapsed maxAge s =
        (⟨n, none⟩, setOwner { s with queue := rest } n) := by
      simp only [autoReleaseCheck]
      rw [if_neg hcond, hdeq]
    refine ⟨?_, fun hnil => by simp [hq] at hnil, fun k' n' rest' hcons => ?_⟩
    · simp [hstep, setOwner]
    · have hn : n = n' := by
        injection hcons with h1 _
        exact congrArg Prod.snd h1
      subst hn
      simp [hstep, setOwner, getOwner]

/-- Witness for C6: a matching snapshot past `maxAge` promotes the
concrete queue head, and with an empty queue installs the sentinel. -/
theorem autoRelease_reclaims_dead_owner_witness :
    ((getOwner (autoReleaseCheck ⟨"c", some 3⟩ 600 500
        ⟨[("c", some 3)], [(0, "d")], 4⟩).2).name = "d") ∧
    ((getOwner (autoReleaseCheck ⟨"c", some 3⟩ 600 500
        ⟨[("c", some 3)], [], 4⟩).2).name = "") :=
  ⟨(autoRelease_reclaims_dead_owner ⟨"c", some 3⟩ 600 500
      ⟨[("c", some 3)], [(0, "d")], 4⟩ rfl rfl (by decide)).2.2 0 "d" [] rfl,
   (autoRelease_reclaims_dead_owner ⟨"c", some 3⟩ 600 500
      ⟨[("c", some 3)], [], 4⟩ rfl rfl (by decide)).2.1 rfl⟩

/-- Embeds `kv.heartbeat` as actually written in kv.go: inside the
`db.Transact` callback the owner is read with `x.getOwner(db)` — `db`
being the database, not the transaction `tr` — so the read runs in its
own transaction, and the versionstamped-value write commits in the outer
transaction with no read-conflict range on the owner key.  `interf` is
any transaction other clients commit between the two. -/
def heartbeatCode (interf : Store → Store) (s : Store) (name : String) : Store :=
  if name = "" then s
  else
    let owner := getOwner s
    let s1 := interf s
    if name = owner.name then
      { s1 with owner := upsert s1.owner name (some s1.vs), vs := s1.vs + 1 }
    else s1

/-- C4 evidence: because heartbeat's owner read runs through `db` in a
transaction separate from its write, a `setOwner "B"` committing between
the two leaves the owner range with two keys; under either serialization
of the atomic single-transaction heartbeat with the same `setOwner "B"`,
the owner range keeps exactly one key. -/
theorem heartbeat_read_write_split_violates_atomicity :
    (heartbeatCode (fun t => setOwner t "B") ⟨[("A", none)], [], 5⟩ "A").owner =
      [("B", none), ("A", some 5)] ∧
    (heartbeat (setOwner ⟨[("A", none)], [], 5⟩ "B") "A").owner.length = 1 ∧
    (setOwner (heartbeat ⟨[("A", none)], [], 5⟩ "A") "B").owner.length = 1 := by
  refine ⟨?_, ?_, ?_⟩ <;> decide

end FdbMutex
